import Mathlib

/-!
Verification development for the fluxcrud asynchronous coordination core and
its repository/cache layer.  Pure shallow embeddings of the source operations
are given first, followed by theorems settling the specification claims.
The asynchronous primitives (CoalescingLoader / DataLoader, BatchAccumulator /
Batcher, BoundedParallelExecutor) are modelled from the specification, since
the module fluxcrud/async_patterns is not part of the available sources; the
repository and cache-manager definitions are translated from
fluxcrud/core/repository.py and fluxcrud/cache/manager.py.
-/

namespace FluxCrud

/-- Association-list lookup: first entry whose key matches, as Python dict
membership does for the small maps modelled here. -/
def assocFind {K V : Type} [DecidableEq K] (c : List (K × V)) (k : K) : Option V :=
  (c.find? (fun p => decide (p.1 = k))).map Prod.snd

/-- Modelled from the spec: deduplication of a key list preserving
first-occurrence order, as used by the CoalescingLoader dispatch algorithm
(the spec text: deduplicate keys while preserving first-occurrence order).
The accumulator holds the keys already emitted. -/
def dedupFirstAux {K : Type} [DecidableEq K] (seen : List K) : List K → List K
  | [] => []
  | k :: ks => if k ∈ seen then dedupFirstAux seen ks else k :: dedupFirstAux (k :: seen) ks

/-- Deduplicate keeping the first occurrence of each key. -/
def dedupFirst {K : Type} [DecidableEq K] (l : List K) : List K :=
  dedupFirstAux [] l

theorem mem_dedupFirstAux {K : Type} [DecidableEq K] (a : K) :
    ∀ (l seen : List K), a ∈ dedupFirstAux seen l ↔ (a ∈ l ∧ a ∉ seen) := by
  intro l
  induction l with
  | nil => intro seen; simp [dedupFirstAux]
  | cons k ks ih =>
    intro seen
    by_cases hk : k ∈ seen
    · simp only [dedupFirstAux, if_pos hk, ih, List.mem_cons]
      constructor
      · rintro ⟨h1, h2⟩; exact ⟨Or.inr h1, h2⟩
      · rintro ⟨rfl | h1, h2⟩
        · exact absurd hk h2
        · exact ⟨h1, h2⟩
    · simp only [dedupFirstAux, if_neg hk, List.mem_cons, ih]
      by_cases hak : a = k
      · subst hak; simp [hk]
      · simp [hak]

theorem mem_dedupFirst {K : Type} [DecidableEq K] (a : K) (l : List K) :
    a ∈ dedupFirst l ↔ a ∈ l := by
  simp [dedupFirst, mem_dedupFirstAux]

theorem nodup_dedupFirstAux {K : Type} [DecidableEq K] :
    ∀ (l seen : List K), (dedupFirstAux seen l).Nodup := by
  intro l
  induction l with
  | nil => intro seen; simp [dedupFirstAux]
  | cons k ks ih =>
    intro seen
    by_cases hk : k ∈ seen
    · simpa [dedupFirstAux, if_pos hk] using ih seen
    · simp only [dedupFirstAux, if_neg hk, List.nodup_cons]
      refine ⟨?_, ih (k :: seen)⟩
      intro hmem
      exact ((mem_dedupFirstAux k ks (k :: seen)).mp hmem).2 (List.mem_cons_self _ _)

theorem nodup_dedupFirst {K : Type} [DecidableEq K] (l : List K) :
    (dedupFirst l).Nodup :=
  nodup_dedupFirstAux l []

theorem sublist_dedupFirstAux {K : Type} [DecidableEq K] :
    ∀ (l seen : List K), List.Sublist (dedupFirstAux seen l) l := by
  intro l
  induction l with
  | nil => intro seen; simp [dedupFirstAux]
  | cons k ks ih =>
    intro seen
    by_cases hk : k ∈ seen
    · simpa [dedupFirstAux, if_pos hk] using List.Sublist.cons k (ih seen)
    · simpa [dedupFirstAux, if_neg hk] using List.Sublist.cons₂ k (ih (k :: seen))

theorem sublist_dedupFirst {K : Type} [DecidableEq K] (l : List K) :
    List.Sublist (dedupFirst l) l :=
  sublist_dedupFirstAux l []

/-- Modelled from the spec: the CoalescingLoader (DataLoader) of the missing
module fluxcrud/async_patterns.  It holds the batch-fetch function, which
returns a positionally aligned list of value-or-absent results or fails as a
whole, and the per-key cache of resolved values (value-or-absent, so that
misses are memoized too), scoped to the loader instance. -/
structure CoalescingLoader (K V E : Type) where
  batchFn : List K → Except E (List (Option V))
  cache : List (K × Option V)

/-- Outcome of one batching tick: the list of batchFn invocations made (each
entry is the key list passed), the per-caller results aligned to the issued
load calls, and the loader state after the tick. -/
structure TickResult (K V E : Type) where
  calls : List (List K)
  results : List (Except E (Option V))
  loader : CoalescingLoader K V E

/-- Modelled from the spec: the key list a dispatch passes to batchFn for the
load calls ks issued within one tick — cached keys are never re-submitted,
and the rest is deduplicated preserving first-registration order. -/
def CoalescingLoader.toFetch {K V E : Type} [DecidableEq K]
    (L : CoalescingLoader K V E) (ks : List K) : List K :=
  dedupFirst (ks.filter (fun k => (assocFind L.cache k).isNone))

/-- Modelled from the spec: one batching tick of the CoalescingLoader.  All
load calls issued within the tick (keys ks, in issue order) run to their
suspension point; cached keys resolve immediately, the others register in the
pending batch.  The single scheduled dispatch then snapshots the batch,
deduplicates preserving first-occurrence order, invokes batchFn once, caches
every resolved key on success, and resolves every waiter from the positional
result; on failure every waiter of the dispatch receives the failure and
nothing is cached.  If every key was cached, no dispatch is scheduled. -/
def CoalescingLoader.runTick {K V E : Type} [DecidableEq K]
    (L : CoalescingLoader K V E) (ks : List K) : TickResult K V E :=
  let tf := L.toFetch ks
  if tf.isEmpty then
    ⟨[], ks.map (fun k => Except.ok ((assocFind L.cache k).getD none)), L⟩
  else
    match L.batchFn tf with
    | Except.ok vs =>
      let c2 := L.cache ++ tf.zip vs
      ⟨[tf], ks.map (fun k => Except.ok ((assocFind c2 k).getD none)),
        ⟨L.batchFn, c2⟩⟩
    | Except.error e =>
      ⟨[tf], ks.map (fun k =>
          match assocFind L.cache k with
          | some ov => Except.ok ov
          | none => Except.error e), L⟩

/-- A doubling batch function over natural-number keys, as in the concrete
test scenario of the spec. -/
def doublingLoader : CoalescingLoader Nat Nat Unit :=
  ⟨fun l => Except.ok (l.map (fun n => some (2 * n))), []⟩

theorem mem_toFetch {K V E : Type} [DecidableEq K]
    (L : CoalescingLoader K V E) (ks : List K) (k : K) :
    k ∈ L.toFetch ks ↔ (k ∈ ks ∧ assocFind L.cache k = none) := by
  simp [CoalescingLoader.toFetch, mem_dedupFirst, List.mem_filter,
    Option.isNone_iff_eq_none]

/-- A batch function that always fails, used to witness the failure claims. -/
def failingLoader : CoalescingLoader Nat Nat Nat :=
  ⟨fun _ => Except.error 7, []⟩

/-- Claim C1: for load calls issued concurrently within one batching tick,
batchFn is invoked exactly once, with a key list that preserves
first-registration order (a sublist of the issue order), contains no
duplicates, and covers exactly the requested keys minus the already-cached
ones; concretely, a fresh loader over a doubling batch function issued
load 1, load 2, load 3 makes one batchFn call on the key list 1, 2, 3 and
yields 2, 4, 6. -/
theorem claim_C1 {K V E : Type} [DecidableEq K]
    (L : CoalescingLoader K V E) (ks : List K)
    (hne : L.toFetch ks ≠ []) :
    (L.runTick ks).calls = [L.toFetch ks] ∧
    (L.toFetch ks).Nodup ∧
    List.Sublist (L.toFetch ks) ks ∧
    (∀ k, k ∈ L.toFetch ks ↔ (k ∈ ks ∧ assocFind L.cache k = none)) ∧
    (doublingLoader.runTick [1, 2, 3]).calls = [[1, 2, 3]] ∧
    (doublingLoader.runTick [1, 2, 3]).results =
      [Except.ok (some 2), Except.ok (some 4), Except.ok (some 6)] := by
  have hemp : (L.toFetch ks).isEmpty = false := by
    cases h : L.toFetch ks with
    | nil => exact absurd h hne
    | cons a l => rfl
  refine ⟨?_, nodup_dedupFirst _, ?_, fun k => mem_toFetch L ks k, by rfl, by rfl⟩
  · cases hbf : L.batchFn (L.toFetch ks) with
    | ok vs => simp [CoalescingLoader.runTick, hemp, hbf]
    | error e => simp [CoalescingLoader.runTick, hemp, hbf]
  · exact (sublist_dedupFirst _).trans (List.filter_sublist _)

theorem claim_C1_witness :
    doublingLoader.toFetch [1, 2, 3] ≠ [] ∧
    (doublingLoader.runTick [1, 2, 3]).calls = [doublingLoader.toFetch [1, 2, 3]] :=
  ⟨by decide, (claim_C1 doublingLoader [1, 2, 3] (by decide)).1⟩

/-- Claim C7: a second load of the same key, issued after the first resolved,
returns the memoized value with no additional batchFn invocation — over the
loader's lifetime batchFn runs at most once for that key. -/
theorem claim_C7 {K V E : Type} [DecidableEq K]
    (f : List K → Except E (List (Option V))) (k : K) (v : Option V)
    (hf : f [k] = Except.ok [v]) :
    ((⟨f, []⟩ : CoalescingLoader K V E).runTick [k]).calls = [[k]] ∧
    ((⟨f, []⟩ : CoalescingLoader K V E).runTick [k]).results = [Except.ok v] ∧
    (((⟨f, []⟩ : CoalescingLoader K V E).runTick [k]).loader.runTick [k]).calls = [] ∧
    (((⟨f, []⟩ : CoalescingLoader K V E).runTick [k]).loader.runTick [k]).results
      = [Except.ok v] ∧
    (((⟨f, []⟩ : CoalescingLoader K V E).runTick [k]).loader.runTick [k]).loader
      = ((⟨f, []⟩ : CoalescingLoader K V E).runTick [k]).loader := by
  have htf : (⟨f, []⟩ : CoalescingLoader K V E).toFetch [k] = [k] := by
    simp [CoalescingLoader.toFetch, assocFind, dedupFirst, dedupFirstAux]
  have h1 : (⟨f, []⟩ : CoalescingLoader K V E).runTick [k]
      = ⟨[[k]], [Except.ok v], ⟨f, [(k, v)]⟩⟩ := by
    simp [CoalescingLoader.runTick, htf, hf, assocFind]
  have htf2 : (⟨f, [(k, v)]⟩ : CoalescingLoader K V E).toFetch [k] = [] := by
    simp [CoalescingLoader.toFetch, assocFind, dedupFirst, dedupFirstAux]
  have h2 : (⟨f, [(k, v)]⟩ : CoalescingLoader K V E).runTick [k]
      = ⟨[], [Except.ok v], ⟨f, [(k, v)]⟩⟩ := by
    simp [CoalescingLoader.runTick, htf2, assocFind]
  rw [h1]
  simp [h2]

theorem claim_C7_witness :
    (doublingLoader.runTick [1]).calls = [[1]] ∧
    ((doublingLoader.runTick [1]).loader.runTick [1]).calls = [] :=
  ⟨(claim_C7 doublingLoader.batchFn 1 (some 2) (by rfl)).1,
   (claim_C7 doublingLoader.batchFn 1 (some 2) (by rfl)).2.2.1⟩

/-- Claim C8: if batchFn fails during a dispatch, every waiter registered in
that dispatch receives that same failure, the cache is unchanged (nothing
from the failed batch is written), and a later tick over the same keys
triggers a fresh batchFn invocation on the same key list. -/
theorem claim_C8 {K V E : Type} [DecidableEq K]
    (L : CoalescingLoader K V E) (ks : List K) (e : E)
    (hne : L.toFetch ks ≠ [])
    (herr : L.batchFn (L.toFetch ks) = Except.error e) :
    (L.runTick ks).calls = [L.toFetch ks] ∧
    (∀ (i : Nat) (k : K), ks[i]? = some k → assocFind L.cache k = none →
        (L.runTick ks).results[i]? = some (Except.error e : Except E (Option V))) ∧
    (L.runTick ks).loader = L ∧
    ((L.runTick ks).loader.runTick ks).calls = [L.toFetch ks] := by
  have hemp : (L.toFetch ks).isEmpty = false := by
    cases h : L.toFetch ks with
    | nil => exact absurd h hne
    | cons a l => rfl
  have hrt : L.runTick ks
      = ⟨[L.toFetch ks],
         ks.map (fun k =>
           match assocFind L.cache k with
           | some ov => Except.ok ov
           | none => Except.error e), L⟩ := by
    simp [CoalescingLoader.runTick, hemp, herr]
  refine ⟨by rw [hrt], ?_, by rw [hrt], by rw [hrt]; rw [hrt]⟩
  intro i k hik hck
  rw [hrt]
  simp only [List.getElem?_map, hik]
  simp [hck]

theorem claim_C8_witness :
    (failingLoader.runTick [1, 2]).calls = [[1, 2]] ∧
    (failingLoader.runTick [1, 2]).results[0]? = some (Except.error 7) ∧
    (failingLoader.runTick [1, 2]).loader = failingLoader := by
  have h := claim_C8 failingLoader [1, 2] 7 (by decide) (by rfl)
  exact ⟨h.1, h.2.1 0 1 (by rfl) (by rfl), h.2.2.1⟩

/-- Modelled from the spec: the BatchAccumulator (Batcher) of the missing
module fluxcrud/async_patterns.  It holds the size threshold, the ordered
buffer of pending items, and the log of handler invocations (each entry is
the item list one flush passed to the handler), standing in for the
user-supplied process function. -/
structure Batcher (T : Type) where
  batchSize : Nat
  buffer : List T
  flushes : List (List T)

/-- A fresh Batcher with the given size threshold, empty buffer, and no
handler invocations yet. -/
def mkBatcher {T : Type} (n : Nat) : Batcher T :=
  ⟨n, [], []⟩

/-- Modelled from the spec: add appends to the buffer and, if the buffer
length reaches batchSize immediately after the append, synchronously drains
the whole buffer into one handler invocation before returning. -/
def Batcher.add {T : Type} (b : Batcher T) (t : T) : Batcher T :=
  if (b.buffer ++ [t]).length = b.batchSize then
    ⟨b.batchSize, [], b.flushes ++ [b.buffer ++ [t]]⟩
  else
    ⟨b.batchSize, b.buffer ++ [t], b.flushes⟩

/-- Modelled from the spec: flush drains and processes whatever is currently
buffered, and is a no-op when the buffer is empty. -/
def Batcher.flush {T : Type} (b : Batcher T) : Batcher T :=
  if b.buffer.isEmpty then b
  else ⟨b.batchSize, [], b.flushes ++ [b.buffer]⟩

/-- Modelled from the spec: a timer firing drains the buffer exactly as a
size-triggered flush would when the buffer is non-empty, and is a no-op when
the buffer was already drained in the meantime. -/
def Batcher.timerFire {T : Type} (b : Batcher T) : Batcher T :=
  if b.buffer.isEmpty then b
  else ⟨b.batchSize, [], b.flushes ++ [b.buffer]⟩

/-- Operations a caller can direct at a Batcher: adding an item, a manual
flush (also covering the scope-exit flush), or the timer firing. -/
inductive BOp (T : Type) where
  | push : T → BOp T
  | drain : BOp T
  | timer : BOp T

/-- One caller-directed step of a Batcher. -/
def Batcher.step {T : Type} (b : Batcher T) : BOp T → Batcher T
  | BOp.push t => b.add t
  | BOp.drain => b.flush
  | BOp.timer => b.timerFire

/-- A whole interaction: the Batcher after a sequence of operations. -/
def Batcher.run {T : Type} (b : Batcher T) (ops : List (BOp T)) : Batcher T :=
  ops.foldl Batcher.step b

/-- Claim C5: with batchSize three, two adds cause no handler invocation, the
third add synchronously triggers exactly one invocation with the items one,
two, three, and a fourth add followed by a manual flush triggers exactly one
more invocation with the single item four. -/
theorem claim_C5 :
    (((mkBatcher 3 : Batcher Nat).add 1).add 2).flushes = [] ∧
    ((((mkBatcher 3 : Batcher Nat).add 1).add 2).add 3).flushes = [[1, 2, 3]] ∧
    ((((mkBatcher 3 : Batcher Nat).add 1).add 2).add 3).buffer = [] ∧
    (((((mkBatcher 3 : Batcher Nat).add 1).add 2).add 3).add 4).flushes
      = [[1, 2, 3]] ∧
    ((((((mkBatcher 3 : Batcher Nat).add 1).add 2).add 3).add 4).flush).flushes
      = [[1, 2, 3], [4]] := by
  refine ⟨rfl, rfl, rfl, rfl, rfl⟩

theorem batcher_step_preserves_no_empty_flush {T : Type} (b : Batcher T)
    (op : BOp T) (h : [] ∉ b.flushes) : [] ∉ (b.step op).flushes := by
  cases op with
  | push t =>
    show [] ∉ (b.add t).flushes
    unfold Batcher.add
    by_cases hlen : (b.buffer ++ [t]).length = b.batchSize
    · rw [if_pos hlen]
      intro hmem
      rcases List.mem_append.mp hmem with h1 | h2
      · exact h h1
      · simp at h2
    · rw [if_neg hlen]
      exact h
  | drain =>
    show [] ∉ b.flush.flushes
    unfold Batcher.flush
    by_cases hbuf : b.buffer.isEmpty = true
    · rw [if_pos hbuf]
      exact h
    · rw [if_neg hbuf]
      intro hmem
      rcases List.mem_append.mp hmem with h1 | h2
      · exact h h1
      · rw [List.mem_singleton] at h2
        rw [List.isEmpty_iff] at hbuf
        exact hbuf h2.symm
  | timer =>
    show [] ∉ b.timerFire.flushes
    unfold Batcher.timerFire
    by_cases hbuf : b.buffer.isEmpty = true
    · rw [if_pos hbuf]
      exact h
    · rw [if_neg hbuf]
      intro hmem
      rcases List.mem_append.mp hmem with h1 | h2
      · exact h h1
      · rw [List.mem_singleton] at h2
        rw [List.isEmpty_iff] at hbuf
        exact hbuf h2.symm

theorem batcher_run_no_empty_flush {T : Type} (ops : List (BOp T)) :
    ∀ (b : Batcher T), [] ∉ b.flushes → [] ∉ (b.run ops).flushes := by
  induction ops with
  | nil => intro b h; exact h
  | cons op ops ih =>
    intro b h
    exact ih (b.step op) (batcher_step_preserves_no_empty_flush b op h)

/-- Claim C6: over every interaction with a Batcher the handler is never
invoked with an empty item list, and a timer that fires after the buffer was
already drained (by a size-triggered flush or otherwise) is a no-op: it
neither flushes again nor makes an empty-batch call. -/
theorem claim_C6 {T : Type} (n : Nat) (ops : List (BOp T)) :
    [] ∉ ((mkBatcher n : Batcher T).run ops).flushes ∧
    (∀ b : Batcher T, b.buffer = [] → b.timerFire = b) := by
  constructor
  · exact batcher_run_no_empty_flush ops (mkBatcher n) (by simp [mkBatcher])
  · intro b hb
    simp [Batcher.timerFire, hb]

theorem claim_C6_witness :
    [] ∉ ((mkBatcher 3 : Batcher Nat).run
        [BOp.push 1, BOp.push 2, BOp.push 3, BOp.timer]).flushes ∧
    (((mkBatcher 3 : Batcher Nat).add 1).flush).timerFire
      = ((mkBatcher 3 : Batcher Nat).add 1).flush :=
  ⟨(claim_C6 3 [BOp.push 1, BOp.push 2, BOp.push 3, BOp.timer]).1,
   (claim_C6 3 ([] : List (BOp Nat))).2 (((mkBatcher 3 : Batcher Nat).add 1).flush) (by rfl)⟩

/-- Modelled from the spec: a configuration of a BoundedParallelExecutor run.
Tasks are indexed by submission position and carry their eventual result;
pending holds the not-yet-admitted tasks in submission order, running the
admitted, still-executing ones, and slots the result placeholder aligned to
each task's original index. -/
structure ExecState (A : Type) where
  pending : List (Nat × A)
  running : List (Nat × A)
  slots : List (Option A)

/-- Modelled from the spec: the admission mechanism — as long as fewer than
limit tasks are running and tasks remain, the next not-yet-started task in
submission order is admitted. -/
def admitTasks {A : Type} (limit : Nat) (s : ExecState A) : ExecState A :=
  ⟨s.pending.drop (limit - s.running.length),
   s.running ++ s.pending.take (limit - s.running.length),
   s.slots⟩

/-- Modelled from the spec: an arbitrary running task (chosen by the
scheduling oracle c, so completion order is unconstrained) finishes and its
result is written into the slot matching its original index.  With nothing
running this is a no-op. -/
def completeTask {A : Type} (c : Nat) (s : ExecState A) : ExecState A :=
  match s.running with
  | [] => s
  | r :: rs =>
    ⟨s.pending,
     (r :: rs).eraseIdx (c % (r :: rs).length),
     s.slots.set ((r :: rs).getD (c % (r :: rs).length) r).1
       (some ((r :: rs).getD (c % (r :: rs).length) r).2)⟩

/-- One scheduler round: a running task completes, then admission refills the
running set up to the limit. -/
def stepExec {A : Type} (limit : Nat) (c : Nat) (s : ExecState A) : ExecState A :=
  admitTasks limit (completeTask c s)

/-- Iterate scheduler rounds, one per completion, under the completion-order
oracle sched. -/
def runExec {A : Type} (limit : Nat) : (Nat → Nat) → Nat → ExecState A → ExecState A
  | _, 0, s => s
  | sched, n + 1, s =>
    runExec limit (fun i => sched (i + 1)) n (stepExec limit (sched 0) s)

/-- The initial configuration for a task list: everything pending, nothing
running, one empty slot per task. -/
def initExec {A : Type} (ts : List A) : ExecState A :=
  ⟨ts.enum, [], List.replicate ts.length none⟩

/-- Modelled from the spec: the final configuration of gatherLimited — the
initial admission, then one scheduler round per task. -/
def execFinal {A : Type} (limit : Nat) (ts : List A) (sched : Nat → Nat) : ExecState A :=
  runExec limit sched ts.length (admitTasks limit (initExec ts))

/-- Modelled from the spec: gatherLimited returns the slot sequence of the
final configuration, aligned to submission order. -/
def gatherLimited {A : Type} (limit : Nat) (ts : List A) (sched : Nat → Nat) :
    List (Option A) :=
  (execFinal limit ts sched).slots

/-- Every configuration a gatherLimited run passes through, in order:
before and after every completion and admission. -/
def traceExec {A : Type} (limit : Nat) : (Nat → Nat) → Nat → ExecState A → List (ExecState A)
  | _, 0, s => [s]
  | sched, n + 1, s =>
    s :: completeTask (sched 0) s ::
      traceExec limit (fun i => sched (i + 1)) n (stepExec limit (sched 0) s)

/-- The whole trace of a gatherLimited run, from the initial configuration. -/
def execTrace {A : Type} (limit : Nat) (ts : List A) (sched : Nat → Nat) :
    List (ExecState A) :=
  initExec ts :: traceExec limit sched ts.length (admitTasks limit (initExec ts))

theorem admit_running_le {A : Type} (limit : Nat) (s : ExecState A)
    (h : s.running.length ≤ limit) :
    (admitTasks limit s).running.length ≤ limit := by
  simp only [admitTasks, List.length_append, List.length_take]
  omega

theorem complete_running_le {A : Type} (limit c : Nat) (s : ExecState A)
    (h : s.running.length ≤ limit) :
    (completeTask c s).running.length ≤ limit := by
  cases hr : s.running with
  | nil => simp [completeTask, hr]
  | cons r rs =>
    simp only [completeTask, hr]
    calc ((r :: rs).eraseIdx (c % (r :: rs).length)).length
        ≤ (r :: rs).length := List.length_eraseIdx_le _ _
      _ ≤ limit := by rw [hr] at h; exact h

theorem traceExec_running_le {A : Type} (limit : Nat) :
    ∀ (n : Nat) (sched : Nat → Nat) (s : ExecState A),
      s.running.length ≤ limit →
      ∀ x ∈ traceExec limit sched n s, x.running.length ≤ limit := by
  intro n
  induction n with
  | zero =>
    intro sched s hs x hx
    simp only [traceExec, List.mem_singleton] at hx
    subst hx
    exact hs
  | succ n ih =>
    intro sched s hs x hx
    simp only [traceExec, List.mem_cons] at hx
    rcases hx with rfl | rfl | hx
    · exact hs
    · exact complete_running_le limit (sched 0) s hs
    · exact ih (fun i => sched (i + 1)) (stepExec limit (sched 0) s)
        (admit_running_le limit _ (complete_running_le limit (sched 0) s hs)) x hx

/-- Claim C3: for every positive limit, every task list and every completion
order, no configuration in the run of gatherLimited ever has more than limit
tasks running concurrently. -/
theorem claim_C3 {A : Type} (limit : Nat) (ts : List A) (sched : Nat → Nat)
    (_hl : 0 < limit) :
    ∀ s ∈ execTrace limit ts sched, s.running.length ≤ limit := by
  intro s hs
  rcases List.mem_cons.mp hs with rfl | hs
  · simp [initExec]
  · exact traceExec_running_le limit ts.length sched (admitTasks limit (initExec ts))
      (admit_running_le limit _ (by simp [initExec])) s hs

theorem claim_C3_witness :
    (initExec [10, 20, 30]).running.length ≤ 2 :=
  claim_C3 2 [10, 20, 30] (fun i => i) (by decide) (initExec [10, 20, 30])
    (List.mem_cons_self _ _)

/-- Invariant tying a configuration to the submitted task list: slots stay
aligned to the tasks, every unfinished entry carries its task's index and
result, and every index with no unfinished entry already holds its task's
result in its slot. -/
def ExecInv {A : Type} (ts : List A) (s : ExecState A) : Prop :=
  s.slots.length = ts.length ∧
  (∀ p ∈ s.pending ++ s.running, ts[p.1]? = some p.2) ∧
  (∀ i : Nat, i < ts.length → (∀ p ∈ s.pending ++ s.running, p.1 ≠ i) →
      s.slots[i]? = Option.map some ts[i]?)

theorem admit_mem_unfin {A : Type} (limit : Nat) (s : ExecState A) (p : Nat × A) :
    (p ∈ (admitTasks limit s).pending ++ (admitTasks limit s).running) ↔
      (p ∈ s.pending ++ s.running) := by
  simp only [admitTasks, List.mem_append]
  constructor
  · rintro (h | h | h)
    · exact Or.inl (List.mem_of_mem_drop h)
    · exact Or.inr h
    · exact Or.inl (List.mem_of_mem_take h)
  · rintro (h | h)
    · rw [← List.take_append_drop (limit - s.running.length) s.pending] at h
      rcases List.mem_append.mp h with h | h
      · exact Or.inr (Or.inr h)
      · exact Or.inl h
    · exact Or.inr (Or.inl h)

theorem admit_unfin_length {A : Type} (limit : Nat) (s : ExecState A) :
    ((admitTasks limit s).pending ++ (admitTasks limit s).running).length =
      (s.pending ++ s.running).length := by
  simp only [admitTasks, List.length_append, List.length_drop, List.length_take]
  omega

theorem admit_inv {A : Type} (limit : Nat) (ts : List A) (s : ExecState A)
    (h : ExecInv ts s) : ExecInv ts (admitTasks limit s) := by
  obtain ⟨h1, h2, h3⟩ := h
  refine ⟨h1, ?_, ?_⟩
  · intro p hp
    exact h2 p ((admit_mem_unfin limit s p).mp hp)
  · intro i hi hnone
    exact h3 i hi (fun p hp => hnone p ((admit_mem_unfin limit s p).mpr hp))

theorem admit_post {A : Type} (limit : Nat) (s : ExecState A)
    (h : s.running.length ≤ limit) (hp : (admitTasks limit s).pending ≠ []) :
    (admitTasks limit s).running.length = limit := by
  simp only [admitTasks] at hp ⊢
  rw [Ne, List.drop_eq_nil_iff] at hp
  simp only [List.length_append, List.length_take]
  omega

theorem getD_mem_of_default_mem {A : Type} (l : List A) (i : Nat) (d : A)
    (hd : d ∈ l) : l.getD i d ∈ l := by
  by_cases h : i < l.length
  · rw [List.getD_eq_getElem?_getD, List.getElem?_eq_getElem h]
    exact List.getElem_mem h
  · rw [List.getD_eq_getElem?_getD, List.getElem?_eq_none (Nat.le_of_not_lt h)]
    exact hd

theorem mem_eraseIdx_or_getD {A : Type} (l : List A) (i : Nat) (hi : i < l.length)
    (d : A) (p : A) (hp : p ∈ l) : p ∈ l.eraseIdx i ∨ p = l.getD i d := by
  have hsplit : l = l.take i ++ l[i] :: l.drop (i + 1) := by
    conv_lhs => rw [← List.take_append_drop i l]
    rw [List.drop_eq_getElem_cons hi]
  have herase : l.eraseIdx i = l.take i ++ l.drop (i + 1) :=
    List.eraseIdx_eq_take_drop_succ l i
  have hgd : l.getD i d = l[i] := by
    rw [List.getD_eq_getElem?_getD, List.getElem?_eq_getElem hi]
    rfl
  rw [hsplit] at hp
  rcases List.mem_append.mp hp with h | h
  · exact Or.inl (by rw [herase]; exact List.mem_append.mpr (Or.inl h))
  · rcases List.mem_cons.mp h with h | h
    · exact Or.inr (by rw [hgd]; exact h)
    · exact Or.inl (by rw [herase]; exact List.mem_append.mpr (Or.inr h))

theorem complete_inv {A : Type} (c : Nat) (ts : List A) (s : ExecState A)
    (h : ExecInv ts s) : ExecInv ts (completeTask c s) := by
  obtain ⟨h1, h2, h3⟩ := h
  cases hr : s.running with
  | nil =>
    have hcs : completeTask c s = s := by simp [completeTask, hr]
    rw [hcs]
    exact ⟨h1, h2, h3⟩
  | cons r rs =>
    have hlen : c % (r :: rs).length < (r :: rs).length :=
      Nat.mod_lt c (Nat.succ_pos rs.length)
    set i := c % (r :: rs).length with hidef
    set t := (r :: rs).getD i r with htdef
    have htmem : t ∈ r :: rs :=
      getD_mem_of_default_mem (r :: rs) i r (List.mem_cons_self r rs)
    have htval : ts[t.1]? = some t.2 := by
      apply h2
      rw [hr]
      exact List.mem_append.mpr (Or.inr htmem)
    have ht1lt : t.1 < ts.length := by
      by_contra hcon
      rw [List.getElem?_eq_none (Nat.le_of_not_lt hcon)] at htval
      exact Option.noConfusion htval
    rw [completeTask, hr]
    refine ⟨by simpa using h1, ?_, ?_⟩
    · intro p hp
      apply h2
      rw [hr]
      rcases List.mem_append.mp hp with hp | hp
      · exact List.mem_append.mpr (Or.inl hp)
      · exact List.mem_append.mpr
          (Or.inr (List.Sublist.mem hp (List.eraseIdx_sublist (r :: rs) i)))
    · intro j hj hnone
      by_cases hji : j = t.1
      · subst hji
        rw [List.getElem?_set_self (by rw [h1]; exact ht1lt)]
        rw [htval]
        rfl
      · rw [List.getElem?_set_ne (fun hcon => hji hcon.symm)]
        apply h3 j hj
        intro p hp
        rw [hr] at hp
        rcases List.mem_append.mp hp with hp | hp
        · exact hnone p (List.mem_append.mpr (Or.inl hp))
        · rcases mem_eraseIdx_or_getD (r :: rs) i hlen r p hp with hp | hp
          · exact hnone p (List.mem_append.mpr (Or.inr hp))
          · rw [hp, ← htdef]
            exact fun hcon => hji hcon.symm

theorem complete_unfin_length {A : Type} (c : Nat) (s : ExecState A)
    (hr : s.running ≠ []) :
    ((completeTask c s).pending ++ (completeTask c s).running).length + 1 =
      (s.pending ++ s.running).length := by
  cases hrr : s.running with
  | nil => exact absurd hrr hr
  | cons r rs =>
    have hlen : c % (r :: rs).length < (r :: rs).length :=
      Nat.mod_lt c (Nat.succ_pos rs.length)
    rw [completeTask, hrr]
    simp only [List.length_append, List.length_eraseIdx_of_lt hlen]
    simp only [List.length_cons]
    omega

theorem runExec_final {A : Type} (ts : List A) (limit : Nat) (hl : 0 < limit) :
    ∀ (n : Nat) (sched : Nat → Nat) (s : ExecState A),
      ExecInv ts s →
      s.running.length ≤ limit →
      (s.pending ≠ [] → s.running.length = limit) →
      (s.pending ++ s.running).length = n →
      ExecInv ts (runExec limit sched n s) ∧
        (runExec limit sched n s).pending = [] ∧
        (runExec limit sched n s).running = [] := by
  intro n
  induction n with
  | zero =>
    intro sched s hinv hb hpost hlen
    rw [runExec]
    rw [List.length_append] at hlen
    refine ⟨hinv, ?_, ?_⟩
    · exact List.length_eq_zero.mp (by omega)
    · exact List.length_eq_zero.mp (by omega)
  | succ n ih =>
    intro sched s hinv hb hpost hlen
    have hrun : s.running ≠ [] := by
      intro hr
      rcases hpend : s.pending with _ | ⟨a, l⟩
      · rw [hpend, hr] at hlen
        simp at hlen
      · have hlim := hpost (by rw [hpend]; exact List.cons_ne_nil a l)
        rw [hr] at hlim
        simp at hlim
        omega
    rw [runExec]
    apply ih
    · exact admit_inv limit ts _ (complete_inv (sched 0) ts s hinv)
    · exact admit_running_le limit _ (complete_running_le limit (sched 0) s hb)
    · exact admit_post limit _ (complete_running_le limit (sched 0) s hb)
    · rw [stepExec, admit_unfin_length]
      have := complete_unfin_length (sched 0) s hrun
      omega

theorem initExec_inv {A : Type} (ts : List A) : ExecInv ts (initExec ts) := by
  refine ⟨by simp [initExec], ?_, ?_⟩
  · intro p hp
    simp only [initExec, List.append_nil] at hp
    have := List.mem_enum_iff_getElem?.mp hp
    exact this
  · intro i hi hnone
    exfalso
    have hget : ts[i]? = some ts[i] := List.getElem?_eq_getElem hi
    have hmem : (i, ts[i]) ∈ ts.enum := List.mem_enum_iff_getElem?.mpr hget
    exact hnone (i, ts[i]) (by simp only [initExec, List.append_nil]; exact hmem) rfl

/-- Claim C4: for every positive limit, every task list and every completion
order, gatherLimited returns a sequence of the same length as the task list
whose i-th element is the i-th task's result — the slot sequence equals the
tasks in submission order — and it does so only in a configuration where all
admitted tasks have settled (nothing pending, nothing running). -/
theorem claim_C4 {A : Type} (limit : Nat) (ts : List A) (sched : Nat → Nat)
    (hl : 0 < limit) :
    gatherLimited limit ts sched = ts.map some ∧
    (execFinal limit ts sched).pending = [] ∧
    (execFinal limit ts sched).running = [] := by
  have h0 : ExecInv ts (initExec ts) := initExec_inv ts
  have hb0 : (initExec ts).running.length ≤ limit := by simp [initExec]
  have hstart := runExec_final ts limit hl ts.length sched
    (admitTasks limit (initExec ts))
    (admit_inv limit ts _ h0)
    (admit_running_le limit _ hb0)
    (admit_post limit _ hb0)
    (by rw [admit_unfin_length]; simp [initExec])
  obtain ⟨⟨hs1, _hs2, hs3⟩, hpend, hrun⟩ := hstart
  refine ⟨?_, hpend, hrun⟩
  simp only [gatherLimited, execFinal]
  apply List.ext_getElem?
  intro i
  rw [List.getElem?_map]
  by_cases hi : i < ts.length
  · apply hs3 i hi
    intro p hp
    rw [hpend, hrun] at hp
    simp at hp
  · have h1 : (ts.map some)[i]? = none := by
      rw [List.getElem?_eq_none]
      simpa using Nat.le_of_not_lt hi
    rw [List.getElem?_map] at h1
    rw [h1]
    rw [List.getElem?_eq_none]
    rw [hs1]
    exact Nat.le_of_not_lt hi

theorem claim_C4_witness :
    gatherLimited 2 [5, 6, 7] (fun i => i) = [some 5, some 6, some 7] ∧ 0 < 2 :=
  ⟨(claim_C4 2 [5, 6, 7] (fun i => i) (by decide)).1, by decide⟩

/-- A database record as the repository sees it: a primary key and the rest
of the row. -/
structure DBRecord (I D : Type) where
  id : I
  data : D

/-- The dict comprehension of _batch_load_by_ids in
fluxcrud/core/repository.py — record_map maps r.id to r for each r in
records — as a function: entries are inserted left to right, later entries
overwriting earlier ones, and lookup of an absent key gives none
(dict.get). -/
def recordMapOf {I D : Type} [DecidableEq I]
    (records : List (DBRecord I D)) : I → Option (DBRecord I D) :=
  records.foldl (fun m r => fun j => if j = r.id then some r else m j) (fun _ => none)

/-- Translation of Repository._batch_load_by_ids
(fluxcrud/core/repository.py): the statement select(...).where(id.in_(ids))
fetches the db records whose id is among ids, record_map indexes them by id,
and the result is [record_map.get(id) for id in ids]. -/
def batch_load_by_ids {I D : Type} [DecidableEq I]
    (db : List (DBRecord I D)) (ids : List I) : List (Option (DBRecord I D)) :=
  ids.map (fun idv => recordMapOf (db.filter (fun r => decide (r.id ∈ ids))) idv)

theorem recordMapOf_foldl_eq {I D : Type} [DecidableEq I] :
    ∀ (rs : List (DBRecord I D)) (m : I → Option (DBRecord I D)) (i : I),
      rs.foldl (fun m r => fun j => if j = r.id then some r else m j) m i =
        match rs.reverse.find? (fun r => decide (r.id = i)) with
        | some r => some r
        | none => m i := by
  intro rs
  induction rs with
  | nil => intro m i; simp
  | cons r rs ih =>
    intro m i
    simp only [List.foldl_cons, ih, List.reverse_cons, List.find?_append]
    cases hfind : rs.reverse.find? (fun x => decide (x.id = i)) with
    | some x => rfl
    | none =>
      simp only [Option.none_or]
      by_cases h : r.id = i
      · simp [List.find?, h, if_pos h.symm]
      · simp [List.find?, h]
        intro hh
        exact absurd hh.symm h

theorem find?_reverse_of_nodup {I D : Type} [DecidableEq I] :
    ∀ (rs : List (DBRecord I D)) (i : I),
      (rs.map (fun r => r.id)).Nodup →
      rs.reverse.find? (fun r => decide (r.id = i)) =
        rs.find? (fun r => decide (r.id = i)) := by
  intro rs
  induction rs with
  | nil => intro i _; rfl
  | cons r rs ih =>
    intro i hnd
    rw [List.map_cons, List.nodup_cons] at hnd
    obtain ⟨hr, hnd⟩ := hnd
    rw [List.reverse_cons, List.find?_append]
    by_cases h : r.id = i
    · have hnone : rs.reverse.find? (fun x => decide (x.id = i)) = none := by
        rw [List.find?_eq_none]
        intro x hx
        simp only [decide_eq_true_eq]
        intro hxi
        apply hr
        have hxmem : x.id ∈ List.map (fun r => r.id) rs :=
          List.mem_map.mpr ⟨x, List.mem_reverse.mp hx, rfl⟩
        rw [hxi, ← h] at hxmem
        exact hxmem
      rw [hnone, Option.none_or]
      simp [List.find?, h]
    · have hone : List.find? (fun x => decide (x.id = i)) [r] = none := by
        simp [List.find?, h]
      rw [hone, Option.or_none, ih i hnd]
      simp [List.find?, h]

theorem find?_filter_mem {I D : Type} [DecidableEq I]
    (db : List (DBRecord I D)) (ids : List I) (i : I) (hi : i ∈ ids) :
    (db.filter (fun r => decide (r.id ∈ ids))).find? (fun r => decide (r.id = i)) =
      db.find? (fun r => decide (r.id = i)) := by
  rw [List.find?_filter]
  have hfun : (fun a : DBRecord I D =>
        decide (decide (a.id ∈ ids) = true ∧ decide (a.id = i) = true)) =
      (fun r : DBRecord I D => decide (r.id = i)) := by
    funext r
    by_cases h : r.id = i
    · simp [h, hi]
    · simp [h]
  rw [hfun]

theorem recordMapOf_eq_find? {I D : Type} [DecidableEq I]
    (db : List (DBRecord I D)) (ids : List I) (i : I)
    (hnd : (db.map (fun r => r.id)).Nodup) (hi : i ∈ ids) :
    recordMapOf (db.filter (fun r => decide (r.id ∈ ids))) i =
      db.find? (fun r => decide (r.id = i)) := by
  have hndf : ((db.filter (fun r => decide (r.id ∈ ids))).map (fun r => r.id)).Nodup :=
    hnd.sublist (List.Sublist.map _ (List.filter_sublist db))
  rw [recordMapOf, recordMapOf_foldl_eq, find?_reverse_of_nodup _ i hndf,
    find?_filter_mem db ids i hi]
  cases db.find? (fun r => decide (r.id = i)) with
  | none => rfl
  | some r => rfl

/-- Claim C2: Repository._batch_load_by_ids returns one entry per requested
id, position i holding the unique db record whose id equals ids at i (by
primary-key uniqueness of db ids) or none when no record has that id; the
batch never fails on absent ids, and duplicate ids receive the same
record. -/
theorem claim_C2 {I D : Type} [DecidableEq I]
    (db : List (DBRecord I D)) (ids : List I)
    (hnd : (db.map (fun r => r.id)).Nodup) :
    (batch_load_by_ids db ids).length = ids.length ∧
    (∀ (i : Nat) (idv : I), ids[i]? = some idv →
        (batch_load_by_ids db ids)[i]? =
          some (db.find? (fun r => decide (r.id = idv)))) ∧
    (∀ (i j : Nat), ids[i]? = ids[j]? →
        (batch_load_by_ids db ids)[i]? = (batch_load_by_ids db ids)[j]?) := by
  refine ⟨by simp [batch_load_by_ids], ?_, ?_⟩
  · intro i idv hik
    have hmem : idv ∈ ids := by
      have := List.getElem?_eq_some_iff.mp hik
      obtain ⟨h1, h2⟩ := this
      rw [← h2]
      exact List.getElem_mem h1
    rw [batch_load_by_ids, List.getElem?_map, hik]
    simp only [Option.map_some']
    rw [recordMapOf_eq_find? db ids idv hnd hmem]
  · intro i j hij
    rw [batch_load_by_ids, List.getElem?_map, List.getElem?_map, hij]

/-- A small concrete database used to witness the repository claims. -/
def dbSample : List (DBRecord Nat Nat) :=
  [⟨1, 10⟩, ⟨2, 20⟩]

theorem claim_C2_witness :
    (batch_load_by_ids dbSample [2, 1, 2, 5]).length = 4 ∧
    (batch_load_by_ids dbSample [2, 1, 2, 5])[3]? =
      some (dbSample.find? (fun r => decide (r.id = 5))) := by
  have h := claim_C2 dbSample [2, 1, 2, 5] (by decide)
  exact ⟨h.1, h.2.1 3 5 (by rfl)⟩

/-- Names of the methods relevant to the repository's bulk cached reads:
the five methods the class CacheManager defines in
fluxcrud/cache/manager.py, plus the two bulk methods get_many and set_many
that Repository.get_many_by_ids invokes on its cache manager. -/
inductive PyMethod where
  | mInit : PyMethod
  | mGet : PyMethod
  | mSet : PyMethod
  | mDelete : PyMethod
  | mClear : PyMethod
  | mGetMany : PyMethod
  | mSetMany : PyMethod
deriving DecidableEq

/-- Translation of the class body of CacheManager in
fluxcrud/cache/manager.py: the methods it defines are exactly init, get,
set, delete and clear. -/
def cacheManagerMethods : List PyMethod :=
  [PyMethod.mInit, PyMethod.mGet, PyMethod.mSet, PyMethod.mDelete, PyMethod.mClear]

/-- Python dynamic attribute access: calling an undefined method raises
AttributeError naming the missing attribute. -/
inductive PyError where
  | attributeError : PyMethod → PyError
deriving DecidableEq

/-- The repository cache key, from Repository._get_cache_key: the pair of
the model's table name and the id (embedding the f-string
tablename:id, which is injective in the id for a fixed table). -/
def getCacheKey {T I : Type} (table : T) (idv : I) : T × I :=
  (table, idv)

/-- Translation of the cached branch of Repository.get_many_by_ids
(fluxcrud/core/repository.py, the branch taken when cache_manager is set):
it builds the key list and then immediately calls
self.cache_manager.get_many(keys).  Python resolves that attribute
dynamically, so the call raises AttributeError when the cache-manager class
does not define get_many; rest stands for the remainder of the method body,
which only runs if the attribute resolves. -/
def get_many_by_ids_cached {T I R : Type}
    (table : T) (ids : List I)
    (rest : List (T × I) → Except PyError R) : Except PyError R :=
  let keys := ids.map (fun idv => getCacheKey table idv)
  if PyMethod.mGetMany ∈ cacheManagerMethods then rest keys
  else Except.error (PyError.attributeError PyMethod.mGetMany)

/-- Claim C9: CacheManager defines neither get_many nor set_many, so for a
repository with a cache manager every get_many_by_ids call (whatever the ids
and whatever the rest of the body would compute) fails with AttributeError
on get_many before producing any result — the cached bulk-read path is
unreachable. -/
theorem claim_C9 {T I R : Type} (table : T) (ids : List I)
    (rest : List (T × I) → Except PyError R) (_hne : ids ≠ []) :
    PyMethod.mGetMany ∉ cacheManagerMethods ∧
    PyMethod.mSetMany ∉ cacheManagerMethods ∧
    get_many_by_ids_cached table ids rest =
      Except.error (PyError.attributeError PyMethod.mGetMany) := by
  refine ⟨by decide, by decide, ?_⟩
  rw [get_many_by_ids_cached]
  rw [if_neg (by decide)]

theorem claim_C9_witness :
    get_many_by_ids_cached 0 [1, 2, 3]
        (fun _ => Except.ok ([] : List (Option Nat))) =
      Except.error (PyError.attributeError PyMethod.mGetMany) :=
  (claim_C9 0 [1, 2, 3] (fun _ => Except.ok ([] : List (Option Nat)))
    (by decide)).2.2

/-- Translation of Repository.get (fluxcrud/core/repository.py) for a
repository configured with a cache manager, no plugins, use_loader false and
no loader options: the cache is consulted first and a truthy cached value is
returned immediately after unpickling; otherwise the database is consulted
(session.get) and, only when an object was found, the pickled object is
written back to the cache before returning.  The byte type B, Python
truthiness on it, and pickling are abstracted as parameters; db abstracts
the session lookup by primary key. -/
def repoGet {T I D B : Type} [DecidableEq I] [DecidableEq T]
    (truthy : B → Bool) (pickleF : DBRecord I D → B)
    (unpickleF : B → DBRecord I D)
    (table : T) (cache : List ((T × I) × B))
    (db : I → Option (DBRecord I D)) (idv : I) :
    Option (DBRecord I D) × List ((T × I) × B) :=
  let key := getCacheKey table idv
  match assocFind cache key with
  | some b =>
    if truthy b then (some (unpickleF b), cache)
    else
      match db idv with
      | some o => (some o, (key, pickleF o) :: cache)
      | none => (none, cache)
  | none =>
    match db idv with
    | some o => (some o, (key, pickleF o) :: cache)
    | none => (none, cache)

/-- Claim C10: with a cache manager configured, Repository.get writes a
cache entry only when a record was found — whenever it returns none the
cache is left unchanged, so a missing id is looked up in the database every
time and misses are never memoized; moreover a falsy cached value is
treated as a cache miss and the database is consulted. -/
theorem claim_C10 {T I D B : Type} [DecidableEq I] [DecidableEq T]
    (truthy : B → Bool) (pickleF : DBRecord I D → B)
    (unpickleF : B → DBRecord I D)
    (table : T) (cache : List ((T × I) × B))
    (db : I → Option (DBRecord I D)) (idv : I) :
    ((repoGet truthy pickleF unpickleF table cache db idv).1 = none →
      (repoGet truthy pickleF unpickleF table cache db idv).2 = cache) ∧
    (∀ b, assocFind cache (getCacheKey table idv) = some b → truthy b = false →
      (repoGet truthy pickleF unpickleF table cache db idv).1 = db idv) ∧
    (assocFind cache (getCacheKey table idv) = none → db idv = none →
      repoGet truthy pickleF unpickleF table cache db idv = (none, cache)) := by
  have hhit : ∀ b, assocFind cache (getCacheKey table idv) = some b →
      repoGet truthy pickleF unpickleF table cache db idv =
        (if truthy b then (some (unpickleF b), cache)
         else
           match db idv with
           | some o => (some o, (getCacheKey table idv, pickleF o) :: cache)
           | none => (none, cache)) := by
    intro b hc
    simp only [repoGet]
    rw [hc]
  have hmiss : assocFind cache (getCacheKey table idv) = none →
      repoGet truthy pickleF unpickleF table cache db idv =
        (match db idv with
         | some o => (some o, (getCacheKey table idv, pickleF o) :: cache)
         | none => (none, cache)) := by
    intro hc
    simp only [repoGet]
    rw [hc]
  refine ⟨?_, ?_, ?_⟩
  · intro hnone
    cases hc : assocFind cache (getCacheKey table idv) with
    | some b =>
      rw [hhit b hc] at hnone ⊢
      by_cases ht : truthy b
      · rw [if_pos ht] at hnone
        simp at hnone
      · rw [if_neg ht] at hnone ⊢
        cases hdb : db idv with
        | some o => rw [hdb] at hnone; simp at hnone
        | none => rfl
    | none =>
      rw [hmiss hc] at hnone ⊢
      cases hdb : db idv with
      | some o => rw [hdb] at hnone; simp at hnone
      | none => rfl
  · intro b hc ht
    rw [hhit b hc, if_neg (by rw [ht]; exact Bool.false_ne_true)]
    cases hdb : db idv with
    | some o => rfl
    | none => rfl
  · intro hc hdb
    rw [hmiss hc, hdb]

/-- A sample database function with a single record of id one, used to
witness the cache-effect claim. -/
def dbFunSample : Nat → Option (DBRecord Nat Nat) :=
  fun i => if i = 1 then some ⟨1, 10⟩ else none

/-- A sample unpickler over boolean byte stand-ins. -/
def unpickleSample : Bool → DBRecord Nat Nat :=
  fun _ => ⟨0, 0⟩

theorem claim_C10_witness :
    (repoGet (fun b : Bool => b) (fun _ => true) unpickleSample 0
        [((0, 5), false)] dbFunSample 5).1 = dbFunSample 5 ∧
    (repoGet (fun b : Bool => b) (fun _ => true) unpickleSample 0
        [((0, 5), false)] dbFunSample 5).2 = [((0, 5), false)] := by
  have h := claim_C10 (fun b : Bool => b) (fun _ => true) unpickleSample 0
    [((0, 5), false)] dbFunSample 5
  exact ⟨h.2.1 false (by rfl) (by rfl), h.1 (by rfl)⟩

end FluxCrud
